import Mathlib

/-!
Verification of the Momentum habit tracker's statistics engine
(`src/App.jsx`, duplicated in the unnamed source part).

Modelling conventions, shared by all definitions below:

* A calendar day is represented by its day number (an `Int`, days since
  1970-01-01).  The JS code identifies a day by its `YYYY-MM-DD` date-key
  string (`getDateKey`); zero-padded date-keys of valid calendar dates are
  in order-preserving bijection with day numbers, so `Object.keys(...)
  .sort()` (lexicographic) corresponds to sorting day numbers ascending.
* A well-formed completion map (the spec's invariant: every stored key maps
  to `true`) is represented by its set of present keys, a `Finset Int`.
  JS truthiness tests `completions[key]` then coincide with membership.
* A JS `Date` value (a timestamp with a time-of-day component) is
  represented by `Timestamp` below: a day number plus milliseconds within
  the day.  `setHours(0,0,0,0)` zeroes the millisecond component.
* JS numbers on the paths modelled here hold integers and small exact
  rationals; they are modelled by `Int`/`Nat` and `ℚ`.  `toFixed(1)`
  (which renders one rounded decimal) is modelled by `toFixed1` returning
  the rounded rational value.
-/

/-- Milliseconds per day, the `1000 * 60 * 60 * 24` of `getDaysDifference`. -/
def msPerDay : Int := 1000 * 60 * 60 * 24

/-- A JS `Date`: the calendar day it falls on plus the time of day in ms. -/
structure Timestamp where
  day : Int
  msOfDay : Int
deriving DecidableEq

/-- `d.setHours(0, 0, 0, 0)`: normalize a timestamp to local midnight. -/
def setMidnight (t : Timestamp) : Timestamp := { t with msOfDay := 0 }

/-- Milliseconds since the epoch of a timestamp (JS numeric coercion `d1 - d2`
operates on this value). -/
def toMs (t : Timestamp) : Int := t.day * msPerDay + t.msOfDay

/-- `getDaysDifference(date1, date2)` from the source: normalize both dates to
midnight, subtract, and take `Math.floor` of the quotient by ms-per-day.
`Math.floor` of an integer quotient is `Int.ediv`, written `/` on `Int`. -/
def getDaysDifference (date1 date2 : Timestamp) : Int :=
  (toMs (setMidnight date1) - toMs (setMidnight date2)) / msPerDay

/-- A habit, restricted to the fields the statistics engine reads.  The
identity and presentation fields (`id`, `name`, `description`, `difficulty`,
colors, reminders) never influence any computation modelled here and are
omitted.  `frequency` is the raw string stored by the UI (`"daily"` or
`"weekly"`), `selectedDays` the optional weekday-index list (`0` = Sunday …
`6` = Saturday), `completions` the set of completed day keys, and
`currentStreak`/`longestStreak` the cached derived values. -/
structure Habit where
  frequency : String
  selectedDays : Option (List Int)
  completions : Finset Int
  createdAt : Timestamp
  currentStreak : Nat
  longestStreak : Nat

/-- Result record of `calculateStreaks`. -/
structure Streaks where
  currentStreak : Nat
  longestStreak : Nat
deriving DecidableEq

/-- The backward walk of `calculateStreaks`: starting at day `d`, count
consecutive present days going back one day at a time, stopping at the first
absent day.  The `fuel` argument models the `if (currentStreak > 365) break`
guard: the JS loop performs at most 366 increments, so it is called with
fuel `366` and each increment consumes one unit. -/
def streakWalk (c : Finset Int) : Int → Nat → Nat
  | _, 0 => 0
  | d, Nat.succ n => if d ∈ c then streakWalk c (d - 1) n + 1 else 0

/-- The gap test of the longest-streak search: `diff === 1 ||
(habit.frequency === 'weekly' && diff <= 7)` where `diff` is the day
difference from `prev` to `next` (consecutive entries of the sorted keys). -/
def gapOk (frequency : String) (prev next : Int) : Bool :=
  next - prev == 1 || (frequency == "weekly" && decide (next - prev ≤ 7))

/-- The inner `j` loop of the longest-streak search, applied to the suffix of
the sorted key list that starts at index `i`: `tempStreak` starts at 1 for
the entry at `i` and grows while consecutive gaps pass `gapOk`, breaking at
the first failure. -/
def runLen (frequency : String) : List Int → Nat
  | [] => 0
  | [_] => 1
  | a :: b :: rest => if gapOk frequency a b then runLen frequency (b :: rest) + 1 else 1

/-- The outer `i` loop of the longest-streak search: the maximum of `runLen`
over every suffix of the sorted key list (`longestStreak` starts at 0). -/
def bestRun (frequency : String) : List Int → Nat
  | [] => 0
  | a :: rest => max (runLen frequency (a :: rest)) (bestRun frequency rest)

/-- `calculateStreaks(habit, completions, referenceDate)` from the source.
Empty map: early return of zeros.  Otherwise the current streak is the
backward walk from the reference date capped at 366 increments, the longest
streak is the best run over the ascending-sorted keys, and the returned
longest streak is the max of that and the current streak.  Only
`habit.frequency` is consulted. -/
def calculateStreaks (habit : Habit) (completions : Finset Int) (referenceDate : Int) : Streaks :=
  if completions = ∅ then ⟨0, 0⟩
  else
    let currentStreak := streakWalk completions referenceDate 366
    let sortedDates := Finset.sort (· ≤ ·) completions
    let longestStreak := bestRun habit.frequency sortedDates
    ⟨currentStreak, max longestStreak currentStreak⟩

/-- The completion-map update inside `toggleHabitCompletion`: delete the key
if present (truthy), insert it (mapped to `true`) otherwise. -/
def toggleCompletion (completions : Finset Int) (dateKey : Int) : Finset Int :=
  if dateKey ∈ completions then completions.erase dateKey else insert dateKey completions

/-- `toggleHabitCompletion` restricted to one habit: toggle the date's key,
recompute both streaks from the updated map with the toggled date as the
reference date, and write all three fields back. -/
def toggleHabitCompletion (habit : Habit) (date : Int) : Habit :=
  let completions := toggleCompletion habit.completions date
  let s := calculateStreaks habit completions date
  { habit with
      completions := completions
      currentStreak := s.currentStreak
      longestStreak := s.longestStreak }

/-- `addHabit`: a new habit takes the submitted form data but fresh
`createdAt`, an empty completion map, and zeroed streak caches. -/
def addHabit (habitData : Habit) (now : Timestamp) : Habit :=
  { habitData with
      createdAt := now
      completions := ∅
      currentStreak := 0
      longestStreak := 0 }

/-- There is always a backward offset whose day is absent from the (finite)
completion set. -/
theorem exists_back_gap (c : Finset Int) (ref : Int) : ∃ n : Nat, ref - (n : Int) ∉ c := by
  rcases c.eq_empty_or_nonempty with h | h
  · exact ⟨0, by simp [h]⟩
  · refine ⟨(ref - c.min' h + 1).toNat, fun hmem => ?_⟩
    have h1 : c.min' h ≤ ref - ((ref - c.min' h + 1).toNat : Int) := Finset.min'_le c _ hmem
    have h2 : ref - c.min' h + 1 ≤ ((ref - c.min' h + 1).toNat : Int) := Int.self_le_toNat _
    omega

/-- The first backward offset from `ref` whose day is absent from `c`; equal
to the number of consecutive present days ending at `ref` (the uncapped
current-streak length). -/
def firstMissing (c : Finset Int) (ref : Int) : Nat :=
  Nat.find (exists_back_gap c ref)

theorem firstMissing_of_not_mem {c : Finset Int} {d : Int} (hd : d ∉ c) :
    firstMissing c d = 0 := by
  rw [firstMissing, Nat.find_eq_zero]
  simpa using hd

theorem firstMissing_of_mem {c : Finset Int} {d : Int} (hd : d ∈ c) :
    firstMissing c d = firstMissing c (d - 1) + 1 := by
  rw [firstMissing, Nat.find_eq_iff]
  refine ⟨?_, ?_⟩
  · have hs := Nat.find_spec (exists_back_gap c (d - 1))
    have : d - ((firstMissing c (d - 1) : Nat) + 1 : Nat) = d - 1 - (firstMissing c (d - 1) : Nat) := by
      push_cast
      ring
    rw [this]
    exact hs
  · intro k hk
    match k with
    | 0 => simpa using hd
    | Nat.succ j =>
      have hj : j < firstMissing c (d - 1) := by omega
      have := Nat.find_min (exists_back_gap c (d - 1)) hj
      simp only [not_not] at this ⊢
      have heq : d - ((j + 1 : Nat) : Int) = d - 1 - (j : Int) := by
        push_cast
        ring
      rw [heq]
      exact this

/-- The backward walk computes the consecutive-day count truncated by fuel. -/
theorem streakWalk_eq_min (c : Finset Int) :
    ∀ (fuel : Nat) (d : Int), streakWalk c d fuel = min (firstMissing c d) fuel := by
  intro fuel
  induction fuel with
  | zero => intro d; simp [streakWalk]
  | succ n ih =>
    intro d
    by_cases hd : d ∈ c
    · rw [streakWalk, if_pos hd, ih (d - 1), firstMissing_of_mem hd]
      omega
    · rw [streakWalk, if_neg hd, firstMissing_of_not_mem hd]
      simp

/-- C3: for every frequency (any habit) and every reference date, streaks of
an empty completion map are zero. -/
theorem claim3_empty_completions (habit : Habit) (referenceDate : Int) :
    calculateStreaks habit ∅ referenceDate = ⟨0, 0⟩ := by
  simp [calculateStreaks]

/-- C5: toggling flips exactly the presence of the given date's key (insert
if absent, remove if present, every other key untouched), so toggling the
same date twice is the identity on well-formed completion maps; consequently
a double `toggleHabitCompletion` restores a habit's completion map. -/
theorem claim5_toggle_involutive (c : Finset Int) (d : Int) (habit : Habit) :
    (∀ x : Int, x ∈ toggleCompletion c d ↔ (if x = d then x ∉ c else x ∈ c)) ∧
    toggleCompletion (toggleCompletion c d) d = c ∧
    (toggleHabitCompletion (toggleHabitCompletion habit d) d).completions = habit.completions := by
  have key : ∀ (s : Finset Int), toggleCompletion (toggleCompletion s d) d = s := by
    intro s
    by_cases h : d ∈ s
    · have h1 : toggleCompletion s d = s.erase d := by rw [toggleCompletion, if_pos h]
      rw [h1, toggleCompletion, if_neg (Finset.not_mem_erase d s), Finset.insert_erase h]
    · have h1 : toggleCompletion s d = insert d s := by rw [toggleCompletion, if_neg h]
      rw [h1, toggleCompletion, if_pos (Finset.mem_insert_self d s), Finset.erase_insert h]
  refine ⟨?_, key c, key habit.completions⟩
  intro x
  by_cases hxd : x = d
  · subst hxd
    by_cases h : x ∈ c
    · simp [toggleCompletion, h]
    · simp [toggleCompletion, h]
  · by_cases h : d ∈ c
    · simp [toggleCompletion, h, hxd, Finset.mem_erase]
    · simp [toggleCompletion, h, hxd, Finset.mem_insert]

/-- C1: for every habit (any frequency and weekday selection), well-formed
non-empty completion map, and reference date, the computed `currentStreak`
is the count of consecutive present days walking backward from the
reference date (the first backward offset whose day is absent), capped at
366.  The first two conjuncts pin down `firstMissing` as exactly that count:
every smaller offset is a present day and the offset itself is absent. -/
theorem claim1_current_streak (habit : Habit) (c : Finset Int) (ref : Int)
    (hne : c.Nonempty) :
    (∀ i : Nat, i < firstMissing c ref → ref - (i : Int) ∈ c) ∧
    ref - (firstMissing c ref : Int) ∉ c ∧
    (calculateStreaks habit c ref).currentStreak = min (firstMissing c ref) 366 := by
  refine ⟨?_, Nat.find_spec (exists_back_gap c ref), ?_⟩
  · intro i hi
    have := Nat.find_min (exists_back_gap c ref) hi
    simpa using this
  · have hne' : ¬c = ∅ := by
      intro h
      rw [h] at hne
      exact absurd hne (by simp)
    simp [calculateStreaks, hne', streakWalk_eq_min]

theorem claim1_current_streak_instance :
    ({3, 2, 0} : Finset Int).Nonempty ∧
    ((∀ i : Nat, i < firstMissing {3, 2, 0} 3 → (3 : Int) - (i : Int) ∈ ({3, 2, 0} : Finset Int)) ∧
     (3 : Int) - (firstMissing {3, 2, 0} 3 : Int) ∉ ({3, 2, 0} : Finset Int) ∧
     (calculateStreaks ⟨"daily", none, {3, 2, 0}, ⟨0, 0⟩, 0, 0⟩ {3, 2, 0} 3).currentStreak
       = min (firstMissing {3, 2, 0} 3) 366) :=
  ⟨⟨3, by decide⟩,
    claim1_current_streak ⟨"daily", none, {3, 2, 0}, ⟨0, 0⟩, 0, 0⟩ {3, 2, 0} 3 ⟨3, by decide⟩⟩

/-- Shared helper for C4: the returned longest streak dominates the returned
current streak, for every input. -/
theorem calculateStreaks_current_le_longest (habit : Habit) (c : Finset Int) (ref : Int) :
    (calculateStreaks habit c ref).currentStreak ≤ (calculateStreaks habit c ref).longestStreak := by
  by_cases h : c = ∅
  · simp [calculateStreaks, h]
  · simp only [calculateStreaks, if_neg h]
    exact Nat.le_max_right _ _

/-- C4: the invariant `0 ≤ currentStreak`, `0 ≤ longestStreak`,
`currentStreak ≤ longestStreak` holds for every result of
`calculateStreaks`, for every freshly created habit (`addHabit` zeroes both
caches), and for every habit after a completion toggle (which rewrites both
caches from `calculateStreaks`). -/
theorem claim4_streak_invariant (habit : Habit) (c : Finset Int) (ref date : Int)
    (habitData : Habit) (now : Timestamp) :
    (0 ≤ (calculateStreaks habit c ref).currentStreak ∧
     0 ≤ (calculateStreaks habit c ref).longestStreak ∧
     (calculateStreaks habit c ref).currentStreak ≤ (calculateStreaks habit c ref).longestStreak) ∧
    ((addHabit habitData now).currentStreak = 0 ∧ (addHabit habitData now).longestStreak = 0) ∧
    (toggleHabitCompletion habit date).currentStreak ≤
      (toggleHabitCompletion habit date).longestStreak := by
  refine ⟨⟨Nat.zero_le _, Nat.zero_le _, calculateStreaks_current_le_longest habit c ref⟩,
    ⟨rfl, rfl⟩, ?_⟩
  simpa [toggleHabitCompletion] using
    calculateStreaks_current_le_longest habit (toggleCompletion habit.completions date) date

/-- Decidable test that every adjacent pair of a list passes `gapOk`: a list
of sorted date-keys forming one unbroken streak under the code's gap rule. -/
def chainOkB (frequency : String) : List Int → Bool
  | [] => true
  | [_] => true
  | a :: b :: rest => gapOk frequency a b && chainOkB frequency (b :: rest)

/-- All contiguous runs (infixes) of a list: every prefix of every suffix. -/
def contiguousRuns (l : List Int) : List (List Int) :=
  l.tails.flatMap List.inits

/-- The greatest length of a contiguous run of `l` whose adjacent gaps all
pass `gapOk`: the claim-level reading of the longest-streak search. -/
def maxChainLen (frequency : String) (l : List Int) : Nat :=
  ((contiguousRuns l).filter (chainOkB frequency)).foldl (fun m p => max m p.length) 0

theorem mem_contiguousRuns {p l : List Int} :
    p ∈ contiguousRuns l ↔ ∃ t, t <:+ l ∧ p <+: t := by
  simp only [contiguousRuns, List.mem_flatMap, List.mem_tails, List.mem_inits]

theorem foldl_max_acc_le : ∀ (xs : List (List Int)) (acc : Nat),
    acc ≤ xs.foldl (fun m p => max m p.length) acc := by
  intro xs
  induction xs with
  | nil => intro acc; exact Nat.le_refl acc
  | cons a xs ih =>
    intro acc
    exact le_trans (Nat.le_max_left acc a.length) (ih (max acc a.length))

theorem le_foldl_max : ∀ (xs : List (List Int)) (acc : Nat) (p : List Int), p ∈ xs →
    p.length ≤ xs.foldl (fun m p => max m p.length) acc := by
  intro xs
  induction xs with
  | nil => intro acc p hp; exact absurd hp (List.not_mem_nil p)
  | cons a xs ih =>
    intro acc p hp
    rcases List.mem_cons.mp hp with h | h
    · subst h
      exact le_trans (Nat.le_max_right acc p.length) (foldl_max_acc_le xs (max acc p.length))
    · exact ih (max acc a.length) p h

theorem foldl_max_le {B : Nat} : ∀ (xs : List (List Int)) (acc : Nat), acc ≤ B →
    (∀ p ∈ xs, p.length ≤ B) → xs.foldl (fun m p => max m p.length) acc ≤ B := by
  intro xs
  induction xs with
  | nil => intro acc hacc _; exact hacc
  | cons a xs ih =>
    intro acc hacc hall
    refine ih (max acc a.length) (Nat.max_le.mpr ⟨hacc, hall a (List.mem_cons_self a xs)⟩) ?_
    intro p hp
    exact hall p (List.mem_cons_of_mem a hp)

/-- Any contiguous run of `l` all of whose gaps pass is counted by
`maxChainLen`. -/
theorem length_le_maxChainLen {frequency : String} {p t l : List Int}
    (ht : t <:+ l) (hp : p <+: t) (hc : chainOkB frequency p = true) :
    p.length ≤ maxChainLen frequency l := by
  have hmem : p ∈ (contiguousRuns l).filter (chainOkB frequency) :=
    List.mem_filter.mpr ⟨mem_contiguousRuns.mpr ⟨t, ht, hp⟩, hc⟩
  exact le_foldl_max _ 0 p hmem

theorem maxChainLen_le {frequency : String} {l : List Int} {B : Nat}
    (h : ∀ p t, t <:+ l → p <+: t → chainOkB frequency p = true → p.length ≤ B) :
    maxChainLen frequency l ≤ B := by
  refine foldl_max_le _ 0 (Nat.zero_le B) ?_
  intro p hp
  rcases List.mem_filter.mp hp with ⟨hmem, hc⟩
  rcases mem_contiguousRuns.mp hmem with ⟨t, ht, hpt⟩
  exact h p t ht hpt hc

theorem runLen_pos (frequency : String) :
    ∀ (l : List Int), l ≠ [] → 1 ≤ runLen frequency l := by
  intro l hl
  match l with
  | [] => exact absurd rfl hl
  | [a] => exact Nat.le_refl 1
  | a :: b :: rest =>
    rw [runLen]
    split
    · exact Nat.le_add_left 1 _
    · exact Nat.le_refl 1

theorem runLen_le_length (frequency : String) :
    ∀ (l : List Int), runLen frequency l ≤ l.length := by
  intro l
  induction l with
  | nil => exact Nat.le_refl 0
  | cons a rest ih =>
    match rest, ih with
    | [], _ => exact Nat.le_refl 1
    | b :: rest', ih =>
      rw [runLen]
      split
      · simpa [List.length_cons] using Nat.add_le_add_right ih 1
      · simp [List.length_cons]

/-- The run the inner loop counts is itself an unbroken chain. -/
theorem chainOkB_take_runLen (frequency : String) :
    ∀ (l : List Int), chainOkB frequency (l.take (runLen frequency l)) = true := by
  intro l
  induction l with
  | nil => rfl
  | cons a tail ih =>
    match tail, ih with
    | [], _ => rfl
    | b :: rest, ih =>
      by_cases hg : gapOk frequency a b
      · rw [runLen, if_pos hg]
        obtain ⟨m, hm⟩ : ∃ m, runLen frequency (b :: rest) = m + 1 := by
          have := runLen_pos frequency (b :: rest) (by simp)
          exact ⟨runLen frequency (b :: rest) - 1, by omega⟩
        rw [hm]
        rw [hm] at ih
        simp only [List.take_succ_cons]
        rw [chainOkB]
        simpa [hg] using ih
      · rw [runLen, if_neg hg]
        rfl

/-- Greedy maximality: every prefix of `l` that is an unbroken chain is no
longer than the run the inner loop counts. -/
theorem chain_le_runLen (frequency : String) :
    ∀ (p l : List Int), p <+: l → chainOkB frequency p = true → p.length ≤ runLen frequency l := by
  intro p
  induction p with
  | nil => intro l _ _; exact Nat.zero_le _
  | cons x p' ih =>
    intro l hp hc
    rcases hp with ⟨t, rfl⟩
    match p', hc, ih with
    | [], _, _ =>
      simpa using runLen_pos frequency (x :: ([] ++ t)) (by simp)
    | y :: p'', hc, ih =>
      rw [chainOkB, Bool.and_eq_true] at hc
      have hg : gapOk frequency x y = true := hc.1
      have hrest : (y :: p'').length ≤ runLen frequency (y :: (p'' ++ t)) :=
        ih (y :: (p'' ++ t)) ⟨t, rfl⟩ hc.2
      have : runLen frequency (x :: y :: (p'' ++ t)) = runLen frequency (y :: (p'' ++ t)) + 1 := by
        rw [runLen, if_pos hg]
      simp only [List.cons_append]
      rw [this]
      simpa [List.length_cons] using Nat.add_le_add_right hrest 1

/-- Every suffix's run is dominated by the outer loop's maximum. -/
theorem runLen_le_bestRun (frequency : String) :
    ∀ (l t : List Int), t <:+ l → runLen frequency t ≤ bestRun frequency l := by
  intro l
  induction l with
  | nil =>
    intro t ht
    rw [List.suffix_nil.mp ht]
    exact Nat.le_refl 0
  | cons a rest ih =>
    intro t ht
    rcases List.suffix_cons_iff.mp ht with h | h
    · subst h
      exact Nat.le_max_left _ _
    · exact le_trans (ih t h) (Nat.le_max_right _ _)

/-- The outer loop's maximum equals the greatest length of a contiguous
unbroken-chain run: loop-based and window-based readings agree. -/
theorem bestRun_eq_maxChainLen (frequency : String) :
    ∀ (l : List Int), bestRun frequency l = maxChainLen frequency l := by
  intro l
  refine Nat.le_antisymm ?_ ?_
  · induction l with
    | nil => exact Nat.zero_le _
    | cons a rest ih =>
      rw [bestRun]
      refine Nat.max_le.mpr ⟨?_, ?_⟩
      · have hp : (a :: rest).take (runLen frequency (a :: rest)) <+: (a :: rest) :=
          ⟨(a :: rest).drop (runLen frequency (a :: rest)), List.take_append_drop _ _⟩
        have hlen : ((a :: rest).take (runLen frequency (a :: rest))).length
            = runLen frequency (a :: rest) := by
          rw [List.length_take]
          exact Nat.min_eq_left (runLen_le_length frequency (a :: rest))
        have := length_le_maxChainLen (List.suffix_refl (a :: rest)) hp
          (chainOkB_take_runLen frequency (a :: rest))
        rwa [hlen] at this
      · refine le_trans ih (maxChainLen_le ?_)
        intro p t ht hpt hc
        rcases ht with ⟨s, rfl⟩
        exact length_le_maxChainLen (l := a :: (s ++ t)) ⟨a :: s, by simp⟩ hpt hc
  · refine maxChainLen_le ?_
    intro p t ht hpt hc
    exact le_trans (chain_le_runLen frequency p t hpt hc) (runLen_le_bestRun frequency l t ht)

/-- C2: for every habit and well-formed completion map, the returned
`longestStreak` is the maximum of (a) the greatest length of a contiguous
run of the ascending-sorted date-keys whose consecutive gaps are all exactly
1 day or, when the frequency is the string `"weekly"`, at most 7 days (the
gap rule `gapOk` consults neither `selectedDays` nor anything else), and
(b) the computed `currentStreak`. -/
theorem claim2_longest_streak (habit : Habit) (c : Finset Int) (ref : Int) :
    (calculateStreaks habit c ref).longestStreak
      = max (maxChainLen habit.frequency (Finset.sort (· ≤ ·) c))
          ((calculateStreaks habit c ref).currentStreak) := by
  by_cases h : c = ∅
  · subst h
    simp only [calculateStreaks, if_pos rfl, Finset.sort_empty]
    rfl
  · simp only [calculateStreaks, if_neg h]
    rw [bestRun_eq_maxChainLen]

/-- A run of `n` consecutive calendar days ending at `ref`: the completion
set `ref - i` for `i = 0 … n-1` (claim C10's hypothesis shape). -/
def runSet (ref : Int) (n : Nat) : Finset Int :=
  (Finset.range n).image (fun i : Nat => ref - (i : Int))

/-- The same run as an ascending list, `ref + 1 - n … ref`. -/
def ascRun (ref : Int) (n : Nat) : List Int :=
  (List.range n).map (fun i : Nat => ref + 1 - (n : Int) + (i : Int))

theorem mem_runSet {x ref : Int} {n : Nat} :
    x ∈ runSet ref n ↔ ∃ i : Nat, i < n ∧ x = ref - (i : Int) := by
  simp only [runSet, Finset.mem_image, Finset.mem_range]
  constructor
  · rintro ⟨i, hi, h⟩
    exact ⟨i, hi, h.symm⟩
  · rintro ⟨i, hi, h⟩
    exact ⟨i, hi, h.symm⟩

theorem mem_ascRun {x ref : Int} {n : Nat} :
    x ∈ ascRun ref n ↔ ∃ i : Nat, i < n ∧ x = ref + 1 - (n : Int) + (i : Int) := by
  simp only [ascRun, List.mem_map, List.mem_range]
  constructor
  · rintro ⟨i, hi, h⟩
    exact ⟨i, hi, h.symm⟩
  · rintro ⟨i, hi, h⟩
    exact ⟨i, hi, h.symm⟩

theorem sort_runSet (ref : Int) (n : Nat) :
    Finset.sort (· ≤ ·) (runSet ref n) = ascRun ref n := by
  have hnodup : (ascRun ref n).Nodup := by
    refine List.Nodup.map ?_ (List.nodup_range n)
    intro a b hab
    have hab' : ref + 1 - (n : Int) + (a : Int) = ref + 1 - (n : Int) + (b : Int) := hab
    omega
  refine List.eq_of_perm_of_sorted ?_ (Finset.sort_sorted _ _) ?_
  · refine (List.perm_ext_iff_of_nodup (Finset.sort_nodup _ _) hnodup).mpr ?_
    intro x
    rw [Finset.mem_sort, mem_runSet, mem_ascRun]
    constructor
    · rintro ⟨i, hi, rfl⟩
      exact ⟨n - 1 - i, by omega, by omega⟩
    · rintro ⟨i, hi, rfl⟩
      exact ⟨n - 1 - i, by omega, by omega⟩
  · have hpw : List.Pairwise (· ≤ ·) (ascRun ref n) := by
      rw [ascRun, List.pairwise_map]
      refine List.Pairwise.imp ?_ (List.pairwise_lt_range n)
      intro a b hab
      omega
    exact hpw

/-- A list whose adjacent pairs all pass `gapOk` passes `chainOkB`. -/
theorem chainOkB_of_chain (frequency : String) :
    ∀ (l : List Int), List.Chain' (fun a b => gapOk frequency a b = true) l →
      chainOkB frequency l = true
  | [], _ => rfl
  | [_], _ => rfl
  | a :: b :: rest, h => by
    rw [List.chain'_cons] at h
    rw [chainOkB, Bool.and_eq_true]
    exact ⟨h.1, chainOkB_of_chain frequency (b :: rest) h.2⟩

theorem chainOkB_ascRun (frequency : String) (ref : Int) (n : Nat) :
    chainOkB frequency (ascRun ref n) = true := by
  refine chainOkB_of_chain frequency _ ?_
  rw [ascRun, List.chain'_map]
  match n with
  | 0 => exact List.chain'_nil
  | Nat.succ m =>
    rw [List.chain'_range_succ]
    intro i hi
    rw [gapOk, Bool.or_eq_true, beq_iff_eq]
    left
    omega

theorem runLen_eq_length_of_chain {frequency : String} {l : List Int}
    (hc : chainOkB frequency l = true) : runLen frequency l = l.length :=
  Nat.le_antisymm (runLen_le_length frequency l)
    (chain_le_runLen frequency l l ⟨[], by simp⟩ hc)

theorem bestRun_le_length (frequency : String) :
    ∀ (l : List Int), bestRun frequency l ≤ l.length := by
  intro l
  induction l with
  | nil => exact Nat.le_refl 0
  | cons a rest ih =>
    rw [bestRun]
    refine Nat.max_le.mpr ⟨runLen_le_length frequency (a :: rest), ?_⟩
    exact le_trans ih (by simp [List.length_cons])

theorem bestRun_ascRun (frequency : String) (ref : Int) (n : Nat) :
    bestRun frequency (ascRun ref n) = n := by
  have hlen : (ascRun ref n).length = n := by
    rw [ascRun, List.length_map, List.length_range]
  refine Nat.le_antisymm ?_ ?_
  · have hb := bestRun_le_length frequency (ascRun ref n)
    rwa [hlen] at hb
  · have h1 := runLen_le_bestRun frequency (ascRun ref n) (ascRun ref n) (List.suffix_refl _)
    rwa [runLen_eq_length_of_chain (chainOkB_ascRun frequency ref n), hlen] at h1

theorem firstMissing_runSet (ref : Int) (n : Nat) :
    firstMissing (runSet ref n) ref = n := by
  rw [firstMissing, Nat.find_eq_iff]
  refine ⟨?_, ?_⟩
  · rw [mem_runSet]
    rintro ⟨i, hi, heq⟩
    omega
  · intro m hm
    rw [not_not, mem_runSet]
    exact ⟨m, hm, rfl⟩

/-- C10: the 366 safety cap applies only to the backward current-streak walk,
not to the longest-streak search: for a completion set that is a run of
`n > 366` consecutive days ending at the reference date, `calculateStreaks`
returns `currentStreak = 366` but `longestStreak = n`, so the returned
longest streak exceeds 366. -/
theorem claim10_cap_only_current (habit : Habit) (ref : Int) (n : Nat) (h : 366 < n) :
    calculateStreaks habit (runSet ref n) ref = ⟨366, n⟩ := by
  have hne : ¬runSet ref n = ∅ := by
    have hm : ref ∈ runSet ref n := mem_runSet.mpr ⟨0, by omega, by simp⟩
    intro he
    rw [he] at hm
    exact absurd hm (Finset.not_mem_empty ref)
  have hcur : streakWalk (runSet ref n) ref 366 = 366 := by
    rw [streakWalk_eq_min, firstMissing_runSet]
    omega
  have hlong : bestRun habit.frequency (Finset.sort (· ≤ ·) (runSet ref n)) = n := by
    rw [sort_runSet, bestRun_ascRun]
  simp only [calculateStreaks, if_neg hne]
  rw [hcur, hlong, Nat.max_eq_left (by omega)]

theorem claim10_cap_only_current_instance :
    366 < 367 ∧
    calculateStreaks ⟨"daily", none, ∅, ⟨0, 0⟩, 0, 0⟩ (runSet 0 367) 0 = ⟨366, 367⟩ :=
  ⟨by omega, claim10_cap_only_current ⟨"daily", none, ∅, ⟨0, 0⟩, 0, 0⟩ 0 367 (by omega)⟩

/-- Proleptic-Gregorian leap-year rule, as implemented by JS `Date`. -/
def isLeapYear (year : Int) : Bool :=
  (year % 4 == 0 && year % 100 != 0) || year % 400 == 0

/-- Day number (days since 1970-01-01) of the civil date
`year`-`month`-`day` with a 1-based month: the calendar day that
`getDateKey` renders as `YYYY-MM-DD`.  (Standard civil-from-days algorithm;
`/` and `%` on `Int` are Euclidean, i.e. floor division here since every
divisor is positive.) -/
def civilToDays (year month day : Int) : Int :=
  let y := if month ≤ 2 then year - 1 else year
  let era := y / 400
  let yoe := y - era * 400
  let mp := (month + 9) % 12
  let doy := (153 * mp + 2) / 5 + day - 1
  let doe := yoe * 365 + yoe / 4 - yoe / 100 + doy
  era * 146097 + doe - 719468

/-- `date.getDay()`: weekday index, 0 = Sunday … 6 = Saturday
(1970-01-01 was a Thursday, index 4). -/
def weekdayOf (day : Int) : Int := (day + 4) % 7

/-- `new Date(year, month + 1, 0).getDate()` for a 0-based month in 0…11:
the day count of that month. -/
def daysInMonth (year month : Int) : Nat :=
  if month = 1 then (if isLeapYear year then 29 else 28)
  else if month = 3 ∨ month = 5 ∨ month = 8 ∨ month = 10 then 30
  else 31

theorem daysInMonth_pos (year month : Int) : 0 < daysInMonth year month := by
  rw [daysInMonth]
  split_ifs <;> norm_num

/-- The `todayHabits` filter predicate of the dashboard: `daily` habits
always apply; `weekly` habits apply iff the date's weekday index is in
`selectedDays` (`habit.selectedDays?.includes(day)`, so an absent list is
falsy and means no match); any other frequency string falls through to
`true`. -/
def isApplicable (habit : Habit) (date : Int) : Bool :=
  if habit.frequency == "daily" then true
  else if habit.frequency == "weekly" then
    (habit.selectedDays.map (fun l => l.contains (weekdayOf date))).getD false
  else true

/-- One entry of `getMonthlyData`: `{day, completed, date}` where
`completed` is the 1/0 presence flag and `date` the day's date-key. -/
structure DayEntry where
  day : Nat
  completed : Nat
  date : Int
deriving DecidableEq

/-- `getMonthlyData(habit, month, year)` (0-based month): one entry per day
`1 … daysInMonth`, in order; `completed` is 1 when the day's date-key is
present in the habit's completions, else 0.  For in-range month and day no
JS `Date` normalization occurs, so the entry's date-key is the civil day
number directly. -/
def getMonthlyData (habit : Habit) (month year : Int) : List DayEntry :=
  (List.range (daysInMonth year month)).map (fun k : Nat =>
    { day := k + 1
      completed := if civilToDays year (month + 1) ((k : Int) + 1) ∈ habit.completions then 1 else 0
      date := civilToDays year (month + 1) ((k : Int) + 1) })

theorem getMonthlyData_length (habit : Habit) (month year : Int) :
    (getMonthlyData habit month year).length = daysInMonth year month := by
  rw [getMonthlyData, List.length_map, List.length_range]

/-- The en-US short month names produced by `toLocaleDateString` for the
twelve 0-based month indices. -/
def monthShortNames : List String :=
  ["Jan", "Feb", "Mar", "Apr", "May", "Jun", "Jul", "Aug", "Sep", "Oct", "Nov", "Dec"]

/-- One entry of `getYearlyData`: `{month, completionRate, completions}`. -/
structure MonthEntry where
  month : String
  completionRate : ℚ
  completions : Nat

/-- `getYearlyData(habit, year)`: for each of the twelve 0-based months,
derive the monthly series, count its completed entries (`d.completed`
truthy, i.e. nonzero), and report `(completions / total) * 100` guarded
against an empty month. -/
def getYearlyData (habit : Habit) (year : Int) : List MonthEntry :=
  (List.range 12).map (fun m : Nat =>
    let monthData := getMonthlyData habit (m : Int) year
    let completions := (monthData.filter (fun d => d.completed != 0)).length
    let total := monthData.length
    { month := monthShortNames.getD m ""
      completionRate := if 0 < total then ((completions : ℚ) / (total : ℚ)) * 100 else 0
      completions := completions })

/-- `x.toFixed(1)` on a (non-negative, exactly representable) rate: the
value rounded to one decimal place. -/
def toFixed1 (q : ℚ) : ℚ := ((round (q * 10) : Int) : ℚ) / 10

/-- Result record of `getHabitStats`. -/
structure HabitStats where
  totalCompletions : Nat
  completionRate : ℚ
  currentStreak : Nat
  longestStreak : Nat

/-- `getHabitStats(habit)` evaluated at an explicit `today` (the source
reads `new Date()`): count of completion keys, completion rate over days
since creation (`getDaysDifference(today, createdAt)`), zero-guarded and
rendered with `toFixed(1)`, plus the cached streak fields. -/
def getHabitStats (habit : Habit) (today : Timestamp) : HabitStats :=
  let completions := habit.completions.card
  let totalDays := getDaysDifference today habit.createdAt
  let completionRate : ℚ :=
    if 0 < totalDays then ((completions : ℚ) / (totalDays : ℚ)) * 100 else 0
  { totalCompletions := completions
    completionRate := toFixed1 completionRate
    currentStreak := habit.currentStreak
    longestStreak := habit.longestStreak }

/-- C6's formula transcribed from the spec's words: completions over the
integer day difference of `today` and `createdAt` (both normalized to
midnight, so only the day components matter), times 100, rounded to one
decimal place, and 0 whenever the day difference is non-positive. -/
def completionRateSpec (totalCompletions : Nat) (createdDay todayDay : Int) : ℚ :=
  let daysSinceCreation := todayDay - createdDay
  if daysSinceCreation ≤ 0 then 0
  else toFixed1 ((totalCompletions : ℚ) / (daysSinceCreation : ℚ) * 100)

theorem getDaysDifference_eq_day_sub (t1 t2 : Timestamp) :
    getDaysDifference t1 t2 = t1.day - t2.day := by
  have h : toMs (setMidnight t1) - toMs (setMidnight t2) = (t1.day - t2.day) * msPerDay := by
    simp only [toMs, setMidnight]
    ring
  rw [getDaysDifference, h, Int.mul_ediv_cancel _ (by norm_num [msPerDay])]

theorem toFixed1_zero : toFixed1 0 = 0 := by
  simp [toFixed1]

/-- C6: for every habit and `today`, the stats record's `completionRate`
equals total completions divided by the integer day difference between
`today` and `createdAt` (both normalized to midnight, so only the day
components matter), times 100, rounded to one decimal place, and 0 whenever
that difference is non-positive; a habit created 10 days ago with 5
completions yields 50.0. -/
theorem claim6_completion_rate (habit : Habit) (today : Timestamp) :
    (getHabitStats habit today).completionRate
      = completionRateSpec habit.completions.card habit.createdAt.day today.day ∧
    (getHabitStats ⟨"daily", none, {0, 1, 2, 3, 4}, ⟨0, 7200000⟩, 0, 0⟩
        ⟨10, 3600000⟩).completionRate = 50 := by
  constructor
  · rw [getHabitStats, completionRateSpec]
    simp only [getDaysDifference_eq_day_sub]
    by_cases h : 0 < today.day - habit.createdAt.day
    · rw [if_pos h, if_neg (by omega)]
    · rw [if_neg h, if_pos (by omega), toFixed1_zero]
  · rw [getHabitStats]
    simp only [getDaysDifference_eq_day_sub]
    have hcard : ({0, 1, 2, 3, 4} : Finset Int).card = 5 := by decide
    rw [hcard]
    norm_num [toFixed1]

/-- C7: the applicability predicate is `true` for every date when the
frequency is `daily`; when the frequency is `weekly` it is `true` iff the
date's weekday index (0 = Sunday … 6 = Saturday) is a member of
`selectedDays`, and `false` when the list is absent or empty.  Concretely,
with selected weekdays 1, 3, 5, it is true on Wednesday 2024-01-03
(weekday 3) and false on Saturday 2024-01-06 (weekday 6). -/
theorem claim7_applicability :
    (∀ (sel : Option (List Int)) (c : Finset Int) (t : Timestamp) (cs ls : Nat) (d : Int),
        isApplicable ⟨"daily", sel, c, t, cs, ls⟩ d = true) ∧
    (∀ (l : List Int) (c : Finset Int) (t : Timestamp) (cs ls : Nat) (d : Int),
        (isApplicable ⟨"weekly", some l, c, t, cs, ls⟩ d = true ↔ weekdayOf d ∈ l)) ∧
    (∀ (c : Finset Int) (t : Timestamp) (cs ls : Nat) (d : Int),
        isApplicable ⟨"weekly", none, c, t, cs, ls⟩ d = false) ∧
    (∀ (c : Finset Int) (t : Timestamp) (cs ls : Nat) (d : Int),
        isApplicable ⟨"weekly", some [], c, t, cs, ls⟩ d = false) ∧
    weekdayOf (civilToDays 2024 1 3) = 3 ∧
    weekdayOf (civilToDays 2024 1 6) = 6 ∧
    isApplicable ⟨"weekly", some [1, 3, 5], ∅, ⟨0, 0⟩, 0, 0⟩ (civilToDays 2024 1 3) = true ∧
    isApplicable ⟨"weekly", some [1, 3, 5], ∅, ⟨0, 0⟩, 0, 0⟩ (civilToDays 2024 1 6) = false := by
  refine ⟨?_, ?_, ?_, ?_, by decide, by decide, by decide, by decide⟩
  · intro sel c t cs ls d
    rfl
  · intro l c t cs ls d
    show l.contains (weekdayOf d) = true ↔ weekdayOf d ∈ l
    exact List.elem_iff
  · intro c t cs ls d
    rfl
  · intro c t cs ls d
    rfl

/-- C8: the monthly series has exactly `daysInMonth` entries whose `day`
values are exactly `1 … N` in strictly ascending order, and each entry's
`completed` flag is 0 or 1 and equals 1 exactly when that day's date-key is
present in the habit's completions. -/
theorem claim8_monthly_series (habit : Habit) (month year : Int) :
    (getMonthlyData habit month year).length = daysInMonth year month ∧
    (getMonthlyData habit month year).map DayEntry.day
      = (List.range (daysInMonth year month)).map (fun k : Nat => k + 1) ∧
    List.Sorted (· < ·) ((getMonthlyData habit month year).map DayEntry.day) ∧
    (getMonthlyData habit month year).map DayEntry.completed
      = (List.range (daysInMonth year month)).map (fun k : Nat =>
          if civilToDays year (month + 1) ((k : Int) + 1) ∈ habit.completions then 1 else 0) ∧
    ∀ e ∈ getMonthlyData habit month year,
      (e.completed = 0 ∨ e.completed = 1) ∧ (e.completed = 1 ↔ e.date ∈ habit.completions) := by
  have hmap : (getMonthlyData habit month year).map DayEntry.day
      = (List.range (daysInMonth year month)).map (fun k : Nat => k + 1) := by
    rw [getMonthlyData, List.map_map]
    rfl
  refine ⟨getMonthlyData_length habit month year, hmap, ?_, ?_, ?_⟩
  · rw [hmap]
    have hpw : List.Pairwise (· < ·)
        ((List.range (daysInMonth year month)).map (fun k : Nat => k + 1)) := by
      rw [List.pairwise_map]
      refine List.Pairwise.imp ?_ (List.pairwise_lt_range _)
      intro a b hab
      omega
    exact hpw
  · rw [getMonthlyData, List.map_map]
    rfl
  · intro e he
    rw [getMonthlyData] at he
    rcases List.mem_map.mp he with ⟨k, _, rfl⟩
    by_cases h : civilToDays year (month + 1) ((k : Int) + 1) ∈ habit.completions
    · simp [h]
    · simp [h]

theorem claim8_monthly_series_instance :
    (⟨1, 1, civilToDays 2024 1 1⟩ : DayEntry)
        ∈ getMonthlyData ⟨"daily", none, {civilToDays 2024 1 1}, ⟨0, 0⟩, 0, 0⟩ 0 2024 ∧
    (((⟨1, 1, civilToDays 2024 1 1⟩ : DayEntry).completed = 0 ∨
      (⟨1, 1, civilToDays 2024 1 1⟩ : DayEntry).completed = 1) ∧
     ((⟨1, 1, civilToDays 2024 1 1⟩ : DayEntry).completed = 1 ↔
      (⟨1, 1, civilToDays 2024 1 1⟩ : DayEntry).date
        ∈ (⟨"daily", none, {civilToDays 2024 1 1}, ⟨0, 0⟩, 0, 0⟩ : Habit).completions)) :=
  ⟨by decide,
    (claim8_monthly_series ⟨"daily", none, {civilToDays 2024 1 1}, ⟨0, 0⟩, 0, 0⟩ 0 2024).2.2.2.2
      ⟨1, 1, civilToDays 2024 1 1⟩ (by decide)⟩

/-- C9: the yearly series has exactly 12 entries for every habit and year,
and the entry of each month carries
`completionRate = completedDays / totalDaysInMonth * 100` where
`completedDays` counts the completed entries of that month's monthly series
and `totalDaysInMonth` is that series' length. -/
theorem claim9_yearly_series (habit : Habit) (year : Int) :
    (getYearlyData habit year).length = 12 ∧
    ∀ m : Nat, m < 12 →
      ((getYearlyData habit year).map MonthEntry.completionRate)[m]?
        = some ((((getMonthlyData habit (m : Int) year).filter
              (fun d => d.completed != 0)).length : ℚ)
            / ((getMonthlyData habit (m : Int) year).length : ℚ) * 100) := by
  constructor
  · rw [getYearlyData, List.length_map, List.length_range]
  · intro m hm
    rw [getYearlyData, List.map_map]
    have hpos : 0 < (getMonthlyData habit (m : Int) year).length := by
      rw [getMonthlyData_length]
      exact daysInMonth_pos year (m : Int)
    simp [List.getElem?_map, List.getElem?_range, hm, hpos]

theorem claim9_yearly_series_instance :
    ((getYearlyData ⟨"daily", none, ∅, ⟨0, 0⟩, 0, 0⟩ 2024).map MonthEntry.completionRate)[0]?
      = some ((((getMonthlyData ⟨"daily", none, ∅, ⟨0, 0⟩, 0, 0⟩ ((0 : Nat) : Int) 2024).filter
            (fun d => d.completed != 0)).length : ℚ)
          / ((getMonthlyData ⟨"daily", none, ∅, ⟨0, 0⟩, 0, 0⟩ ((0 : Nat) : Int) 2024).length : ℚ)
          * 100) :=
  (claim9_yearly_series ⟨"daily", none, ∅, ⟨0, 0⟩, 0, 0⟩ 2024).2 0 (by decide)
